import Mathlib

/-!
Verification of the nsz-go NCA→NCZ compression core.

This file shallowly embeds the relevant parts of the Go sources
(pkg/fs/pfs0.go, pkg/fs/nca.go, pkg/fs/nca_header.go, pkg/fs/bktr.go,
pkg/nsz/ncz.go, pkg/crypto) into Lean and proves or refutes the frozen
claims about them.

Conventions of the embedding:
- `[]byte` values are `List Nat` (each element a byte value; where the Go
  code stores a byte, the embedding reduces modulo 256 at the same spot).
- Random-access readers (`io.ReaderAt` over the NCA file, and the decrypted
  BKTR area) are `Buf`: a length together with a total indexing function,
  mirroring a Go slice's length + O(1) indexing.  All accesses performed by
  the embedded code are guarded by the same bounds checks as the source.
- AES block encryption/decryption are abstract functions (the cipher itself
  is an external primitive); everything built on top of them (ECB chunking,
  CTR counter construction and keystream positioning, XTS is not needed by
  the claims) is embedded from the source.
- Go `uint64` arithmetic is `Nat` arithmetic reduced mod 2^64 where the
  source can overflow; `uint32` casts reduce mod 2^32.
-/

namespace NszGo

/-- Byte strings: lists of byte values. -/
abbrev Bytes := List Nat

/-- Go `copy(dst, src)`: overwrite the first `min |dst| |src|` bytes of
`dst` with those of `src`, keeping the rest of `dst`. -/
def copyInto (dst src : Bytes) : Bytes :=
  src.take (min dst.length src.length) ++ dst.drop (min dst.length src.length)

/-- Big-endian encoding of `v` into `k` bytes (most significant first),
as produced by `binary.BigEndian.PutUint64` / byte shifts in the source. -/
def beBytes : Nat → Nat → Bytes
  | 0, _ => []
  | k + 1, v => (v / 2 ^ (8 * k)) % 256 :: beBytes k v

/-- Big-endian value of a byte string (bytes reduced mod 256, as stored). -/
def bytesToNat : Bytes → Nat
  | [] => 0
  | b :: rest => (b % 256) * 256 ^ rest.length + bytesToNat rest

@[simp] theorem beBytes_length (k v : Nat) : (beBytes k v).length = k := by
  induction k generalizing v with
  | zero => rfl
  | succ k ih => simp [beBytes, ih]

theorem bytesToNat_append (a b : Bytes) :
    bytesToNat (a ++ b) = bytesToNat a * 256 ^ b.length + bytesToNat b := by
  induction a with
  | nil => simp [bytesToNat]
  | cons x xs ih =>
    have hc : (x :: xs) ++ b = x :: (xs ++ b) := rfl
    rw [hc, bytesToNat, bytesToNat, ih, List.length_append, pow_add]
    ring

theorem bytesToNat_beBytes (k v : Nat) : bytesToNat (beBytes k v) = v % 2 ^ (8 * k) := by
  induction k generalizing v with
  | zero => simp [beBytes, bytesToNat, Nat.mod_one]
  | succ k ih =>
    have h2 : (2 : Nat) ^ (8 * (k + 1)) = 2 ^ (8 * k) * 2 ^ 8 := by ring
    rw [beBytes, bytesToNat, ih, beBytes_length, h2, Nat.mod_mul]
    have h256 : (256 : Nat) ^ k = 2 ^ (8 * k) := by
      rw [show (256 : Nat) = 2 ^ 8 from rfl, ← pow_mul]
    rw [Nat.mod_mod_of_dvd _ dvd_rfl, h256]
    have h8 : (2 : Nat) ^ 8 = 256 := by norm_num
    rw [h8]
    ring

theorem bytesToNat_lt (l : Bytes) : bytesToNat l < 256 ^ l.length := by
  induction l with
  | nil => simp [bytesToNat]
  | cons b rest ih =>
    simp only [bytesToNat, List.length_cons, pow_succ]
    have hb : b % 256 ≤ 255 := Nat.le_of_lt_succ (Nat.mod_lt _ (by norm_num))
    calc (b % 256) * 256 ^ rest.length + bytesToNat rest
        < (b % 256) * 256 ^ rest.length + 256 ^ rest.length := by omega
      _ = (b % 256 + 1) * 256 ^ rest.length := by ring
      _ ≤ 256 * 256 ^ rest.length := by
          exact Nat.mul_le_mul_right _ (by omega)
      _ = 256 ^ rest.length * 256 := by ring

/-! ## Block layout of the NCZ compressor (pkg/fs/pfs0.go, `CompressNca`
and `compressBlocks`). -/

/-- `NcaFullHeaderSize = 0x4000` (pkg/fs/nca_header.go). -/
def NcaFullHeaderSize : Nat := 0x4000

/-- `blockSize := int64(1) << DefaultBlockSizeEx` with `DefaultBlockSizeEx = 20`. -/
def goBlockSize : Nat := 2 ^ 20

/-- `blockCount := uint32((dataSize + blockSize - 1) / blockSize)` with
`dataSize := totalSize - NcaFullHeaderSize` (pkg/fs/pfs0.go:157-158).
The `uint32` conversion truncates mod 2^32. -/
def goBlockCount (totalSize : Nat) : Nat :=
  ((totalSize - NcaFullHeaderSize + goBlockSize - 1) / goBlockSize) % 2 ^ 32

/-- Work-item offset of block `i`: `offset := NcaFullHeaderSize + int64(i)*blockSize`
(pkg/fs/pfs0.go:286). -/
def goBlockOffset (i : Nat) : Nat := NcaFullHeaderSize + i * goBlockSize

/-- Work-item size of block `i`: `size := blockSize; if offset+size > totalSize
{ size = totalSize - offset }` (pkg/fs/pfs0.go:287-290). -/
def goBlockLen (totalSize i : Nat) : Nat :=
  if goBlockOffset i + goBlockSize > totalSize then totalSize - goBlockOffset i
  else goBlockSize

/-- C1 (counterexample): at `T = 0x4000 + 2^52` the Go block count is `0`
because the `uint32` conversion truncates, while `⌈(T - 0x4000) / 2^20⌉ = 2^32`;
the claimed identity `block_count = ceil((T - 0x4000)/B)` fails, and no block
range exists at all, so the ranges cannot cover `[0x4000, T)`. -/
theorem claim1_counterexample :
    goBlockCount (0x4000 + 2 ^ 52) = 0 ∧
    (0x4000 + 2 ^ 52 - 0x4000 + 2 ^ 20 - 1) / 2 ^ 20 = 2 ^ 32 ∧
    (0 : Nat) ≠ 2 ^ 32 := by
  refine ⟨?_, by norm_num, by norm_num⟩
  show ((0x4000 + 2 ^ 52 - 0x4000 + 2 ^ 20 - 1) / 2 ^ 20) % 2 ^ 32 = 0
  norm_num

/-- C1 (amended): for every total size `T` with `0x4000 < T` and
`T - 0x4000 ≤ (2^32 - 1) · 2^20` (so that the `uint32` conversion of the
block count does not truncate), the compressor uses block size `2^20`,
`block_count = ⌈(T - 0x4000) / 2^20⌉`, block `i` covers
`[0x4000 + i·2^20, min (0x4000 + (i+1)·2^20) T)`, and the block ranges
tile `[0x4000, T)` exactly: block 0 starts at `0x4000`, each block is
nonempty, consecutive blocks are adjacent, and the last block ends at `T`. -/
theorem claim1_blockCover (T : Nat) (h1 : 0x4000 < T)
    (h2 : T - 0x4000 ≤ (2 ^ 32 - 1) * 2 ^ 20) :
    goBlockCount T = (T - 0x4000 + 2 ^ 20 - 1) / 2 ^ 20 ∧
    (T - 0x4000) ≤ goBlockCount T * 2 ^ 20 ∧
    (goBlockCount T - 1) * 2 ^ 20 < T - 0x4000 ∧
    0 < goBlockCount T ∧
    goBlockOffset 0 = 0x4000 ∧
    (∀ i, i < goBlockCount T →
      goBlockOffset i + goBlockLen T i = min (goBlockOffset (i + 1)) T) ∧
    (∀ i, i < goBlockCount T → 0 < goBlockLen T i) ∧
    (∀ i, i + 1 < goBlockCount T →
      goBlockOffset i + goBlockLen T i = goBlockOffset (i + 1)) ∧
    goBlockOffset (goBlockCount T - 1) + goBlockLen T (goBlockCount T - 1) = T := by
  have hB : (0 : Nat) < 2 ^ 20 := by norm_num
  set d : Nat := T - 0x4000 with hd
  set e : Nat := d + 2 ^ 20 - 1 with he
  have hdiv := Nat.div_add_mod e (2 ^ 20)
  have hmod : e % 2 ^ 20 < 2 ^ 20 := Nat.mod_lt _ hB
  -- the untruncated quotient
  have hq : e / 2 ^ 20 < 2 ^ 32 := by
    have hlt : e < 2 ^ 32 * 2 ^ 20 := by
      have : e ≤ (2 ^ 32 - 1) * 2 ^ 20 + 2 ^ 20 - 1 := by omega
      have h32 : ((2 : Nat) ^ 32 - 1) * 2 ^ 20 + 2 ^ 20 - 1 < 2 ^ 32 * 2 ^ 20 := by
        norm_num
      omega
    exact (Nat.div_lt_iff_lt_mul hB).mpr hlt
  have hbc : goBlockCount T = e / 2 ^ 20 := by
    unfold goBlockCount NcaFullHeaderSize goBlockSize
    rw [← hd, ← he]
    exact Nat.mod_eq_of_lt hq
  have hd0 : 0 < d := by omega
  refine ⟨hbc, ?_, ?_, ?_, ?_, ?_, ?_, ?_, ?_⟩
  · omega
  · omega
  · omega
  · rfl
  · intro i hi
    rw [hbc] at hi
    unfold goBlockLen goBlockOffset goBlockSize
    have hiB : i * 2 ^ 20 + 2 ^ 20 = (i + 1) * 2 ^ 20 := by ring
    have hle : i * 2 ^ 20 ≤ (e / 2 ^ 20 - 1) * 2 ^ 20 :=
      Nat.mul_le_mul_right _ (by omega)
    have hoff : NcaFullHeaderSize + i * 2 ^ 20 < T := by
      unfold NcaFullHeaderSize
      have : (e / 2 ^ 20 - 1) * 2 ^ 20 < d := by omega
      omega
    unfold NcaFullHeaderSize at *
    split
    · omega
    · omega
  · intro i hi
    rw [hbc] at hi
    unfold goBlockLen goBlockOffset goBlockSize NcaFullHeaderSize
    have hle : i * 2 ^ 20 ≤ (e / 2 ^ 20 - 1) * 2 ^ 20 :=
      Nat.mul_le_mul_right _ (by omega)
    have : (e / 2 ^ 20 - 1) * 2 ^ 20 < d := by omega
    split
    · omega
    · omega
  · intro i hi
    rw [hbc] at hi
    unfold goBlockLen goBlockOffset goBlockSize NcaFullHeaderSize
    have hle : (i + 1) * 2 ^ 20 ≤ (e / 2 ^ 20 - 1) * 2 ^ 20 :=
      Nat.mul_le_mul_right _ (by omega)
    have : (e / 2 ^ 20 - 1) * 2 ^ 20 < d := by omega
    have hi1 : (i + 1) * 2 ^ 20 = i * 2 ^ 20 + 2 ^ 20 := by ring
    split
    · omega
    · omega
  · unfold goBlockLen goBlockOffset goBlockSize NcaFullHeaderSize
    rw [hbc]
    have hle : (e / 2 ^ 20 - 1) * 2 ^ 20 < d := by omega
    have hup : d ≤ (e / 2 ^ 20) * 2 ^ 20 := by omega
    have h1' : (e / 2 ^ 20 - 1) * 2 ^ 20 + 2 ^ 20 = (e / 2 ^ 20) * 2 ^ 20 := by
      have h0 : 0 < e / 2 ^ 20 := by
        by_contra h
        have : e / 2 ^ 20 = 0 := by omega
        omega
      cases Nat.exists_eq_add_of_lt h0 with
      | intro k hk =>
        rw [hk]
        ring_nf
        omega
    split
    · omega
    · omega

/-- C1 witness: the amended cover theorem applied at `T = 0x4000 + 3·2^20 + 5`. -/
theorem claim1_blockCover_witness :
    (0x4000 < 0x4000 + 3 * 2 ^ 20 + 5) ∧
    goBlockCount (0x4000 + 3 * 2 ^ 20 + 5) = 4 ∧
    goBlockOffset 0 = 0x4000 := by
  have h := claim1_blockCover (0x4000 + 3 * 2 ^ 20 + 5) (by norm_num) (by norm_num)
  refine ⟨by norm_num, ?_, h.2.2.2.2.1⟩
  rw [h.1]
  norm_num

/-! ## Per-block keep-smaller choice (pkg/fs/pfs0.go:264-279). -/

/-- The worker's choice after compressing: `if len(compressed) < len(chunk)
{ data = compressed } else { data = copy of chunk }`. -/
def pickSmaller (compressed chunk : Bytes) : Bytes :=
  if compressed.length < chunk.length then compressed else chunk

/-- C2: the bytes emitted for a block are the zstd output exactly when it is
strictly shorter than the raw (decrypted) block, otherwise a verbatim copy of
the raw block; consequently the emitted length is `len(zstd(raw))` when that
is `< len(raw)`, is `len(raw)` otherwise, and never exceeds `len(raw)`. -/
theorem claim2_keepSmaller (zstd : Bytes → Bytes) (raw : Bytes) :
    ((zstd raw).length < raw.length → pickSmaller (zstd raw) raw = zstd raw) ∧
    (¬ (zstd raw).length < raw.length → pickSmaller (zstd raw) raw = raw) ∧
    (pickSmaller (zstd raw) raw).length =
      (if (zstd raw).length < raw.length then (zstd raw).length else raw.length) ∧
    (pickSmaller (zstd raw) raw).length ≤ raw.length := by
  unfold pickSmaller
  refine ⟨fun h => by simp [h], fun h => by simp [h], ?_, ?_⟩
  · split <;> rfl
  · split
    · omega
    · exact Nat.le_refl _

/-- C2 witness: concrete instances of both branches of the choice. -/
theorem claim2_keepSmaller_witness :
    pickSmaller ([] : Bytes) [0] = [] ∧ pickSmaller [1, 2] [0] = [0] := by
  refine ⟨(claim2_keepSmaller (fun _ => []) [0]).1 (by decide), ?_⟩
  exact (claim2_keepSmaller (fun _ => [1, 2]) [0]).2.1 (by decide)

/-! ## Effective key generation (pkg/fs/nca_header.go:141-149). -/

/-- `keyGen := int(KeyGeneration); if KeyGeneration2 > KeyGeneration
{ keyGen = int(KeyGeneration2) }; keyGen = keyGen - 1; if keyGen < 0
{ keyGen = 0 }` — computed over Go `int`. -/
def effectiveKeyGen (keyGeneration keyGeneration2 : Nat) : Int :=
  if (if keyGeneration2 > keyGeneration then (keyGeneration2 : Int) else keyGeneration) - 1 < 0
  then 0
  else (if keyGeneration2 > keyGeneration then (keyGeneration2 : Int) else keyGeneration) - 1

/-- C6: the effective key generation equals `max (max kg kg2 - 1) 0`, and in
particular `kg = 3, kg2 = 5` yields `4`. -/
theorem claim6_effectiveKeyGen :
    (∀ keyGeneration keyGeneration2 : Nat,
      effectiveKeyGen keyGeneration keyGeneration2 =
        max (max (keyGeneration : Int) (keyGeneration2 : Int) - 1) 0) ∧
    effectiveKeyGen 3 5 = 4 := by
  constructor
  · intro kg kg2
    unfold effectiveKeyGen
    split <;> split <;> omega
  · rfl

/-! ## AES-CTR with absolute-offset counter (pkg/crypto, `NewCTRStream`).

The AES block cipher itself is an external primitive; it enters the
embedding as an abstract function `E : Bytes → Bytes` from a 16-byte counter
block to a 16-byte keystream block (one such function per key).  What is
embedded from the source is the counter construction
(`copy(counter, iv); binary.BigEndian.PutUint64(counter[8:], uint64(off>>4))`)
and the big-endian increment-per-block behaviour of `cipher.NewCTR`. -/

/-- Initial counter of `NewCTRStream(key, iv, absoluteOffset)`. -/
def initCounter (iv : Bytes) (absoluteOffset : Nat) : Bytes :=
  (copyInto (List.replicate 16 0) iv).take 8 ++ beBytes 8 ((absoluteOffset / 16) % 2 ^ 64)

/-- Counter block consumed for the `j`-th 16-byte keystream block:
`cipher.NewCTR` increments the full 16-byte counter as a big-endian
integer, i.e. mod 2^128. -/
def ctrCounter (iv : Bytes) (absoluteOffset j : Nat) : Bytes :=
  beBytes 16 ((bytesToNat (initCounter iv absoluteOffset) + j) % 2 ^ 128)

/-- Keystream byte at stream position `i` (position 0 = `absoluteOffset`). -/
def ksByte (E : Bytes → Bytes) (iv : Bytes) (absoluteOffset i : Nat) : Nat :=
  (E (ctrCounter iv absoluteOffset (i / 16))).getD (i % 16) 0

/-- `XORKeyStream` over a byte list, starting at stream position `i`. -/
def xorKeystream (E : Bytes → Bytes) (iv : Bytes) (absoluteOffset : Nat) :
    Bytes → Nat → Bytes
  | [], _ => []
  | b :: rest, i => (b ^^^ ksByte E iv absoluteOffset i) ::
      xorKeystream E iv absoluteOffset rest (i + 1)

/-- One `NewCTRStream(key, iv, O)` call followed by `XORKeyStream` over `data`. -/
def ctrProcess (E : Bytes → Bytes) (iv : Bytes) (absoluteOffset : Nat) (data : Bytes) : Bytes :=
  xorKeystream E iv absoluteOffset data 0

/-- Processing a partition of a range: a fresh `NewCTRStream` call per part,
each positioned at that part's absolute offset. -/
def ctrProcessParts (E : Bytes → Bytes) (iv : Bytes) : Nat → List Bytes → Bytes
  | _, [] => []
  | absoluteOffset, p :: ps =>
      ctrProcess E iv absoluteOffset p ++ ctrProcessParts E iv (absoluteOffset + p.length) ps

theorem xorKeystream_append (E : Bytes → Bytes) (iv : Bytes) (O : Nat) (d1 d2 : Bytes) :
    ∀ i, xorKeystream E iv O (d1 ++ d2) i =
      xorKeystream E iv O d1 i ++ xorKeystream E iv O d2 (i + d1.length) := by
  induction d1 with
  | nil => intro i; simp [xorKeystream]
  | cons b rest ih =>
    intro i
    have hc : (b :: rest) ++ d2 = b :: (rest ++ d2) := rfl
    have hidx : i + (b :: rest).length = (i + 1) + rest.length := by
      rw [List.length_cons]
      omega
    rw [hc, xorKeystream, xorKeystream, ih (i + 1), hidx, List.cons_append]

theorem ksByte_shift (E : Bytes → Bytes) (iv : Bytes) (O L : Nat)
    (hO : 16 ∣ O) (hL : 16 ∣ L) (hb : O + L ≤ 2 ^ 63) :
    ∀ i, ksByte E iv O (L + i) = ksByte E iv (O + L) i := by
  obtain ⟨o, rfl⟩ := hO
  obtain ⟨l, rfl⟩ := hL
  intro i
  have ho64 : o % 2 ^ 64 = o := Nat.mod_eq_of_lt (by omega)
  have hol64 : (o + l) % 2 ^ 64 = o + l := Nat.mod_eq_of_lt (by omega)
  have hmod : (16 * l + i) % 16 = i % 16 := by omega
  have hblock : ctrCounter iv (16 * o) ((16 * l + i) / 16) =
      ctrCounter iv (16 * o + 16 * l) (i / 16) := by
    unfold ctrCounter initCounter
    congr 1
    rw [bytesToNat_append, bytesToNat_append, beBytes_length, beBytes_length,
      bytesToNat_beBytes, bytesToNat_beBytes]
    have h64 : 8 * 8 = 64 := by norm_num
    rw [h64]
    have hdiv1 : 16 * o / 16 = o := Nat.mul_div_cancel_left o (by norm_num)
    have hdiv2 : (16 * o + 16 * l) / 16 = o + l := by
      rw [show 16 * o + 16 * l = 16 * (o + l) by ring]
      exact Nat.mul_div_cancel_left _ (by norm_num)
    have hdiv3 : (16 * l + i) / 16 = l + i / 16 := Nat.mul_add_div (by norm_num) l i
    rw [hdiv1, hdiv2, hdiv3, Nat.mod_mod_of_dvd _ dvd_rfl, Nat.mod_mod_of_dvd _ dvd_rfl,
      ho64, hol64]
    congr 1
    ring
  unfold ksByte
  rw [hmod, hblock]

theorem xorKeystream_shift (E : Bytes → Bytes) (iv : Bytes) (O L : Nat)
    (hO : 16 ∣ O) (hL : 16 ∣ L) (hb : O + L ≤ 2 ^ 63) (d : Bytes) :
    ∀ j, xorKeystream E iv O d (L + j) = xorKeystream E iv (O + L) d j := by
  induction d with
  | nil => intro j; rfl
  | cons b rest ih =>
    intro j
    rw [xorKeystream, xorKeystream, ksByte_shift E iv O L hO hL hb j,
      show L + j + 1 = L + (j + 1) by ring, ih (j + 1)]

theorem ctrProcess_split (E : Bytes → Bytes) (iv : Bytes) (O : Nat) (d1 d2 : Bytes)
    (hO : 16 ∣ O) (hd1 : 16 ∣ d1.length) (hb : O + d1.length ≤ 2 ^ 63) :
    ctrProcess E iv O (d1 ++ d2) =
      ctrProcess E iv O d1 ++ ctrProcess E iv (O + d1.length) d2 := by
  unfold ctrProcess
  rw [xorKeystream_append E iv O d1 d2 0]
  congr 1
  have h0 : 0 + d1.length = d1.length + 0 := by ring
  rw [h0]
  exact xorKeystream_shift E iv O d1.length hO hd1 hb d2 0

theorem ctrProcessParts_eq (E : Bytes → Bytes) (iv : Bytes) :
    ∀ (parts : List Bytes) (O : Nat), 16 ∣ O →
      (∀ p ∈ parts.dropLast, 16 ∣ p.length) →
      O + parts.flatten.length ≤ 2 ^ 63 →
      ctrProcessParts E iv O parts = ctrProcess E iv O parts.flatten := by
  intro parts
  induction parts with
  | nil => intro O _ _ _; rfl
  | cons p ps ih =>
    intro O hO hparts hb
    cases ps with
    | nil =>
      show ctrProcess E iv O p ++ ctrProcessParts E iv (O + p.length) [] =
        ctrProcess E iv O ([p].flatten)
      simp [ctrProcessParts, List.flatten]
    | cons q qs =>
      have hdl : (p :: q :: qs).dropLast = p :: (q :: qs).dropLast := rfl
      have hp : 16 ∣ p.length := hparts p (by rw [hdl]; exact List.mem_cons_self _ _)
      have hflat : (p :: q :: qs).flatten = p ++ (q :: qs).flatten := rfl
      have hlen : (p ++ (q :: qs).flatten).length = p.length + ((q :: qs).flatten).length :=
        List.length_append _ _
      rw [hflat] at hb
      rw [hlen] at hb
      show ctrProcess E iv O p ++ ctrProcessParts E iv (O + p.length) (q :: qs) =
        ctrProcess E iv O ((p :: q :: qs).flatten)
      rw [hflat, ctrProcess_split E iv O p ((q :: qs).flatten) hO hp (by omega)]
      congr 1
      exact ih (O + p.length) (Dvd.dvd.add hO hp)
        (fun r hr => hparts r (by rw [hdl]; exact List.mem_cons_of_mem _ hr))
        (by omega)

/-- C3: `NewCTRStream(key, iv, O)` derives its counter from `iv` by replacing
bytes [8,16) with big-endian `u64(O >> 4)` and leaving bytes [0,8) unchanged;
consequently, for a 16-byte iv and a 16-byte-aligned offset `O` (with the
whole range inside the `int64` offset domain), CTR-processing `[O, O+n)` in
one call equals the concatenation of CTR-processing over any partition of
that range at 16-byte-aligned cut points. -/
theorem claim3_ctrCounterAndPartition (E : Bytes → Bytes) (iv : Bytes) (O : Nat)
    (parts : List Bytes) (hiv : iv.length = 16) (hO : 16 ∣ O)
    (hparts : ∀ p ∈ parts.dropLast, 16 ∣ p.length)
    (hb : O + parts.flatten.length ≤ 2 ^ 63) :
    ((initCounter iv O).take 8 = iv.take 8 ∧
     (initCounter iv O).drop 8 = beBytes 8 ((O / 16) % 2 ^ 64) ∧
     (initCounter iv O).length = 16) ∧
    ctrProcessParts E iv O parts = ctrProcess E iv O parts.flatten := by
  have hcopy : copyInto (List.replicate 16 0) iv = iv := by
    unfold copyInto
    rw [List.length_replicate, hiv, Nat.min_self,
      List.drop_eq_nil_of_le (by rw [List.length_replicate]),
      List.append_nil, List.take_of_length_le (by rw [hiv])]
  have hic : initCounter iv O = iv.take 8 ++ beBytes 8 ((O / 16) % 2 ^ 64) := by
    unfold initCounter
    rw [hcopy]
  have h8 : (iv.take 8).length = 8 := by
    rw [List.length_take, hiv]
    omega
  refine ⟨⟨?_, ?_, ?_⟩, ?_⟩
  · rw [hic, List.take_left' h8]
  · rw [hic, List.drop_left' h8]
  · rw [hic, List.length_append, h8, beBytes_length]
  · exact ctrProcessParts_eq E iv parts O hO hparts hb

/-- C3 witness: the partition theorem applied to a concrete two-part split
of an 18-byte range at absolute offset 32. -/
theorem claim3_witness :
    ((List.replicate 16 (1 : Nat)).length = 16 ∧ (16 : Nat) ∣ 32 ∧
     (∀ p ∈ ([List.replicate 16 (2 : Nat), [3, 4]]).dropLast, 16 ∣ p.length) ∧
     32 + ([List.replicate 16 (2 : Nat), [3, 4]].flatten).length ≤ 2 ^ 63) ∧
    ctrProcessParts (fun _ => [7]) (List.replicate 16 1) 32
        [List.replicate 16 2, [3, 4]] =
      ctrProcess (fun _ => [7]) (List.replicate 16 1) 32
        ([List.replicate 16 2, [3, 4]].flatten) := by
  refine ⟨⟨by decide, by decide, by decide, by norm_num⟩, ?_⟩
  exact (claim3_ctrCounterAndPartition (fun _ => [7]) (List.replicate 16 1) 32
    [List.replicate 16 2, [3, 4]] (by decide) (by decide) (by decide) (by norm_num)).2

/-! ## AES-ECB (pkg/crypto, `ECBDecrypt` / `ECBEncrypt`).

The per-block cipher operations are abstract (`D key`, `E key` map one
16-byte block to its image); the chunking loop, the length check and the
key check of `aes.NewCipher` are embedded from the source. -/

/-- Key lengths accepted by `aes.NewCipher`. -/
def aesKeyOk (key : Bytes) : Prop :=
  key.length = 16 ∨ key.length = 24 ∨ key.length = 32

instance (key : Bytes) : Decidable (aesKeyOk key) := by
  unfold aesKeyOk
  infer_instance

/-- Fuel-indexed ECB chunk loop (`for i := 0; i < len(data); i += 16`). -/
def ecbChunksAux (F : Bytes → Bytes) : Nat → Bytes → Bytes
  | 0, _ => []
  | fuel + 1, data =>
    if data = [] then []
    else F (data.take 16) ++ ecbChunksAux F fuel (data.drop 16)

/-- ECB over the whole (16-aligned) buffer: one `F` application per 16-byte
block, concatenated in order. -/
def ecbChunks (F : Bytes → Bytes) (data : Bytes) : Bytes :=
  ecbChunksAux F data.length data

/-- `ECBDecrypt(data, key)`: rejects keys `aes.NewCipher` rejects and data
whose length is not a multiple of the 16-byte block size, otherwise decrypts
block by block into a fresh output buffer. -/
def goECB (F : Bytes → Bytes → Bytes) (data key : Bytes) : Option Bytes :=
  if ¬ aesKeyOk key then none
  else if data.length % 16 ≠ 0 then none
  else some (ecbChunks (F key) data)

theorem ecbChunksAux_length (F : Bytes → Bytes)
    (hF : ∀ b : Bytes, b.length = 16 → (F b).length = 16) :
    ∀ fuel data, data.length ≤ fuel → 16 ∣ data.length →
      (ecbChunksAux F fuel data).length = data.length := by
  intro fuel
  induction fuel with
  | zero =>
    intro data hle _
    have : data = [] := List.eq_nil_of_length_eq_zero (by omega)
    simp [this, ecbChunksAux]
  | succ fuel ih =>
    intro data hle hdvd
    by_cases hnil : data = []
    · simp [hnil, ecbChunksAux]
    · have hpos : 0 < data.length := List.length_pos.mpr hnil
      have h16 : 16 ≤ data.length := Nat.le_of_dvd hpos hdvd
      rw [ecbChunksAux, if_neg hnil, List.length_append,
        hF _ (by rw [List.length_take]; omega),
        ih (data.drop 16) (by rw [List.length_drop]; omega)
          (by rw [List.length_drop]; exact (Nat.dvd_sub' hdvd (dvd_refl 16))),
        List.length_drop]
      omega

theorem ecbChunksAux_roundtrip (F G : Bytes → Bytes)
    (hF : ∀ b : Bytes, b.length = 16 → (F b).length = 16)
    (hGF : ∀ b : Bytes, b.length = 16 → G (F b) = b) :
    ∀ fuel1 fuel2 data, data.length ≤ fuel1 → data.length ≤ fuel2 →
      16 ∣ data.length →
      ecbChunksAux G fuel2 (ecbChunksAux F fuel1 data) = data := by
  intro fuel1
  induction fuel1 with
  | zero =>
    intro fuel2 data hle _ _
    have : data = [] := List.eq_nil_of_length_eq_zero (by omega)
    subst this
    cases fuel2 <;> simp [ecbChunksAux]
  | succ fuel1 ih =>
    intro fuel2 data hle1 hle2 hdvd
    by_cases hnil : data = []
    · subst hnil
      cases fuel2 <;> simp [ecbChunksAux]
    · have hpos : 0 < data.length := List.length_pos.mpr hnil
      have h16 : 16 ≤ data.length := Nat.le_of_dvd hpos hdvd
      have htk : (data.take 16).length = 16 := by rw [List.length_take]; omega
      have hFlen : (F (data.take 16)).length = 16 := hF _ htk
      obtain ⟨fuel2', rfl⟩ : ∃ k, fuel2 = k + 1 := ⟨fuel2 - 1, by omega⟩
      have hinner : ecbChunksAux F (fuel1 + 1) data =
          F (data.take 16) ++ ecbChunksAux F fuel1 (data.drop 16) := by
        rw [ecbChunksAux, if_neg hnil]
      have hne : F (data.take 16) ++ ecbChunksAux F fuel1 (data.drop 16) ≠ [] := by
        intro h
        have hl := congrArg List.length h
        rw [List.length_append, hFlen] at hl
        simp at hl
      have htake : (F (data.take 16) ++ ecbChunksAux F fuel1 (data.drop 16)).take 16 =
          F (data.take 16) := List.take_left' hFlen
      have hdrop : (F (data.take 16) ++ ecbChunksAux F fuel1 (data.drop 16)).drop 16 =
          ecbChunksAux F fuel1 (data.drop 16) := List.drop_left' hFlen
      rw [hinner, ecbChunksAux, if_neg hne, htake, hdrop, hGF _ htk,
        ih fuel2' (data.drop 16) (by rw [List.length_drop]; omega)
          (by rw [List.length_drop]; omega)
          (by rw [List.length_drop]; exact Nat.dvd_sub' hdvd (dvd_refl 16)),
        List.take_append_drop]

theorem ecbChunks_roundtrip (F G : Bytes → Bytes)
    (hF : ∀ b : Bytes, b.length = 16 → (F b).length = 16)
    (hGF : ∀ b : Bytes, b.length = 16 → G (F b) = b)
    (data : Bytes) (hdvd : 16 ∣ data.length) :
    ecbChunks G (ecbChunks F data) = data := by
  have hlen : (ecbChunksAux F data.length data).length = data.length :=
    ecbChunksAux_length F hF data.length data (le_refl _) hdvd
  show ecbChunksAux G (ecbChunksAux F data.length data).length
      (ecbChunksAux F data.length data) = data
  rw [hlen]
  exact ecbChunksAux_roundtrip F G hF hGF data.length data.length data
    (le_refl _) (le_refl _) hdvd

/-- C10: for every key accepted by the AES constructor and every 16-byte
aligned input, `ECBEncrypt(ECBDecrypt(data, key), key) = data` and
`ECBDecrypt(ECBEncrypt(data, key), key) = data`; both produce an output of
the same length as the input (a freshly allocated buffer in the source),
and both reject misaligned inputs with an error. -/
theorem claim10_ecbRoundtrip (E D : Bytes → Bytes → Bytes) (key data : Bytes)
    (hkey : aesKeyOk key)
    (hElen : ∀ b : Bytes, b.length = 16 → (E key b).length = 16)
    (hDlen : ∀ b : Bytes, b.length = 16 → (D key b).length = 16)
    (hED : ∀ b : Bytes, b.length = 16 → E key (D key b) = b)
    (hDE : ∀ b : Bytes, b.length = 16 → D key (E key b) = b)
    (hdata : data.length % 16 = 0) :
    (goECB D data key).bind (fun mid => goECB E mid key) = some data ∧
    (goECB E data key).bind (fun mid => goECB D mid key) = some data ∧
    (∃ mid, goECB D data key = some mid ∧ mid.length = data.length) ∧
    (∃ mid, goECB E data key = some mid ∧ mid.length = data.length) ∧
    (∀ bad : Bytes, ¬ bad.length % 16 = 0 →
      goECB D bad key = none ∧ goECB E bad key = none) := by
  have hdvd : 16 ∣ data.length := Nat.dvd_of_mod_eq_zero hdata
  have hDecLen : (ecbChunks (D key) data).length = data.length :=
    ecbChunksAux_length (D key) hDlen data.length data (le_refl _) hdvd
  have hEncLen : (ecbChunks (E key) data).length = data.length :=
    ecbChunksAux_length (E key) hElen data.length data (le_refl _) hdvd
  have hgo : ∀ (F : Bytes → Bytes → Bytes) (d : Bytes), d.length % 16 = 0 →
      goECB F d key = some (ecbChunks (F key) d) := by
    intro F d hd
    unfold goECB
    rw [if_neg (by simp [hkey]), if_neg (by simp [hd])]
  refine ⟨?_, ?_, ?_, ?_, ?_⟩
  · rw [hgo D data hdata]
    show goECB E (ecbChunks (D key) data) key = some data
    rw [hgo E _ (by rw [hDecLen]; exact hdata)]
    exact congrArg some (ecbChunks_roundtrip (D key) (E key) hDlen hED data hdvd)
  · rw [hgo E data hdata]
    show goECB D (ecbChunks (E key) data) key = some data
    rw [hgo D _ (by rw [hEncLen]; exact hdata)]
    exact congrArg some (ecbChunks_roundtrip (E key) (D key) hElen hDE data hdvd)
  · exact ⟨_, hgo D data hdata, hDecLen⟩
  · exact ⟨_, hgo E data hdata, hEncLen⟩
  · intro bad hbad
    constructor <;>
      · unfold goECB
        rw [if_neg (by simp [hkey]), if_pos (by simpa using hbad)]

/-- C10 witness: the round trip instantiated with the identity block cipher
on a 32-byte buffer, plus rejection of a 1-byte buffer. -/
theorem claim10_witness :
    ((goECB (fun _ b => b) (List.replicate 32 (5 : Nat)) (List.replicate 16 0)).bind
      (fun mid => goECB (fun _ b => b) mid (List.replicate 16 0)) =
        some (List.replicate 32 5)) ∧
    goECB (fun _ b => b) [1] (List.replicate 16 (0 : Nat)) = none := by
  have h := claim10_ecbRoundtrip (fun _ b => b) (fun _ b => b)
    (List.replicate 16 0) (List.replicate 32 5)
    (Or.inl (by decide))
    (fun b hb => hb) (fun b hb => hb) (fun b _ => rfl) (fun b _ => rfl)
    (by decide)
  exact ⟨h.1, (h.2.2.2.2 [1] (by decide)).1⟩

/-! ## Key derivation (pkg/nsz/ncz.go: `DeriveKeys`, `GenerateKek`,
`UnwrapAesWrappedTitleKey`, `DecryptTitleKey`).

The key store (`keys` map populated by `keys.Load`) is modelled as a lookup
function `String → Option Bytes`; the derived global arrays
`titleKeks [32][]byte` and `keyAreaKeys [32][3][]byte` become functions out
of `Fin 32` (entries start out `none`, matching nil slices). -/

/-- One lowercase hex digit, as produced by `fmt.Sprintf("%x", ...)`. -/
def hexDigit (n : Nat) : Char :=
  if n < 10 then Char.ofNat (48 + n) else Char.ofNat (87 + n)

/-- `fmt.Sprintf("%02x", i)` for a byte-sized `i < 256`. -/
def byteHex (i : Nat) : String :=
  String.mk [hexDigit (i / 16 % 16), hexDigit (i % 16)]

/-- `fmt.Sprintf("master_key_%02x", i)`. -/
def masterKeyName (i : Nat) : String := "master_key_" ++ byteHex i

/-- The three key-area source names, indexed as in `keyAreaSources`. -/
def keyAreaSourceName (t : Fin 3) : String :=
  if t.val = 0 then "key_area_key_application_source"
  else if t.val = 1 then "key_area_key_ocean_source"
  else "key_area_key_system_source"

/-- The derived-keys arrays filled in by `DeriveKeys`. -/
structure DerivedKeys where
  titleKeks : Fin 32 → Option Bytes
  keyAreaKeys : Fin 32 → Fin 3 → Option Bytes

/-- `GenerateKek(src, masterKey, kekSeed, keySeed)`:
`kek = ECBDecrypt(kekSeed, masterKey); srcKek = ECBDecrypt(src, kek);
if keySeed != nil { return ECBDecrypt(keySeed, srcKek) }; return srcKek`. -/
def GenerateKek (D : Bytes → Bytes → Bytes) (src masterKey kekSeed : Bytes)
    (keySeed : Option Bytes) : Option Bytes :=
  (goECB D kekSeed masterKey).bind fun kek =>
    (goECB D src kek).bind fun srcKek =>
      match keySeed with
      | some ks => goECB D ks srcKek
      | none => some srcKek

/-- `DeriveKeys()` (pkg/nsz/ncz.go:96-144): returns early (deriving nothing)
if either generation source is missing; otherwise, per generation `i` with
`master_key_i` present, derives the title kek and the three key-area keys,
skipping any entry whose inputs are missing or whose ECB call fails. -/
def DeriveKeys (D : Bytes → Bytes → Bytes) (store : String → Option Bytes) : DerivedKeys :=
  match store "aes_kek_generation_source", store "aes_key_generation_source" with
  | some aesKekGen, some aesKeyGen =>
    { titleKeks := fun i =>
        (store (masterKeyName i)).bind fun masterKey =>
          (store "titlekek_source").bind fun titleKekSource =>
            goECB D titleKekSource masterKey
      keyAreaKeys := fun i t =>
        (store (masterKeyName i)).bind fun masterKey =>
          (store (keyAreaSourceName t)).bind fun src =>
            GenerateKek D src masterKey aesKekGen (some aesKeyGen) }
  | _, _ => ⟨fun _ => none, fun _ _ => none⟩

theorem goECB_single (D : Bytes → Bytes → Bytes) (key data : Bytes)
    (hk : key.length = 16) (hd : data.length = 16) :
    goECB D data key = some (D key data) := by
  have hne : data ≠ [] := by
    intro h
    rw [h] at hd
    simp at hd
  unfold goECB
  rw [if_neg (by simp [aesKeyOk, hk]), if_neg (by simp [hd])]
  congr 1
  show ecbChunksAux (D key) data.length data = D key data
  rw [hd, show (16 : Nat) = 15 + 1 from rfl, ecbChunksAux, if_neg hne,
    List.take_of_length_le (by rw [hd]),
    List.drop_eq_nil_of_le (by rw [hd]),
    show (15 : Nat) = 14 + 1 from rfl, ecbChunksAux, if_pos rfl, List.append_nil]

/-- C7: for every generation `i < 32` whose `master_key_i` is loaded, and
with the source constants present,
`title_kek[i] = ECB_Decrypt(titlekek_source, master_key_i)` and
`key_area_key_application[i] = ECB_Decrypt(aes_key_generation_source,
ECB_Decrypt(key_area_key_application_source,
ECB_Decrypt(aes_kek_generation_source, master_key_i)))`; generations whose
master key is absent are left underived.  (`D k b` is the AES-ECB decryption
of a single 16-byte block `b` under key `k`.) -/
theorem claim7_deriveKeys (D : Bytes → Bytes → Bytes) (store : String → Option Bytes)
    (hD : ∀ k b : Bytes, (D k b).length = 16)
    (kekGen keyGen tks appSrc : Bytes)
    (hkek : store "aes_kek_generation_source" = some kekGen) (hkek16 : kekGen.length = 16)
    (hkey : store "aes_key_generation_source" = some keyGen) (hkey16 : keyGen.length = 16)
    (htks : store "titlekek_source" = some tks) (htks16 : tks.length = 16)
    (happ : store "key_area_key_application_source" = some appSrc)
    (happ16 : appSrc.length = 16) :
    (∀ (i : Fin 32) (mk : Bytes), store (masterKeyName i) = some mk → mk.length = 16 →
      (DeriveKeys D store).titleKeks i = some (D mk tks) ∧
      (DeriveKeys D store).keyAreaKeys i 0 = some (D (D (D mk kekGen) appSrc) keyGen)) ∧
    (∀ i : Fin 32, store (masterKeyName i) = none →
      (DeriveKeys D store).titleKeks i = none ∧
      ∀ t, (DeriveKeys D store).keyAreaKeys i t = none) := by
  have happName : keyAreaSourceName 0 = "key_area_key_application_source" := rfl
  unfold DeriveKeys
  rw [hkek, hkey]
  constructor
  · intro i mk hmk hmk16
    constructor
    · show ((store (masterKeyName i)).bind fun masterKey =>
          (store "titlekek_source").bind fun titleKekSource =>
            goECB D titleKekSource masterKey) = some (D mk tks)
      rw [hmk, htks]
      show goECB D tks mk = some (D mk tks)
      exact goECB_single D mk tks hmk16 htks16
    · show ((store (masterKeyName i)).bind fun masterKey =>
          (store (keyAreaSourceName 0)).bind fun src =>
            GenerateKek D src masterKey kekGen (some keyGen)) =
          some (D (D (D mk kekGen) appSrc) keyGen)
      rw [hmk, happName, happ]
      show GenerateKek D appSrc mk kekGen (some keyGen) =
        some (D (D (D mk kekGen) appSrc) keyGen)
      unfold GenerateKek
      rw [goECB_single D mk kekGen hmk16 hkek16]
      show (goECB D appSrc (D mk kekGen)).bind _ = _
      rw [goECB_single D (D mk kekGen) appSrc (hD _ _) happ16]
      show goECB D keyGen (D (D mk kekGen) appSrc) = _
      rw [goECB_single D (D (D mk kekGen) appSrc) keyGen (hD _ _) hkey16]
  · intro i hmk
    refine ⟨?_, fun t => ?_⟩
    · show ((store (masterKeyName i)).bind fun masterKey =>
          (store "titlekek_source").bind fun titleKekSource =>
            goECB D titleKekSource masterKey) = none
      rw [hmk]
      rfl
    · show ((store (masterKeyName i)).bind fun masterKey =>
          (store (keyAreaSourceName t)).bind fun src =>
            GenerateKek D src masterKey kekGen (some keyGen)) = none
      rw [hmk]
      rfl

/-- A concrete five-entry key store used to exercise `DeriveKeys`. -/
def demoStore : String → Option Bytes := fun s =>
  if s = "master_key_00" ∨ s = "aes_kek_generation_source" ∨
     s = "aes_key_generation_source" ∨ s = "titlekek_source" ∨
     s = "key_area_key_application_source"
  then some (List.replicate 16 0) else none

/-- C7 witness: the derivation equations applied at generation 0 of a
concrete store with the constant-zero block cipher. -/
theorem claim7_witness :
    demoStore (masterKeyName (0 : Fin 32)) = some (List.replicate 16 0) ∧
    (DeriveKeys (fun _ _ => List.replicate 16 0) demoStore).titleKeks 0 =
      some (List.replicate 16 0) ∧
    (DeriveKeys (fun _ _ => List.replicate 16 0) demoStore).keyAreaKeys 0 0 =
      some (List.replicate 16 0) := by
  have h := claim7_deriveKeys (fun _ _ => List.replicate 16 0) demoStore
    (fun _ _ => by simp)
    (List.replicate 16 0) (List.replicate 16 0) (List.replicate 16 0) (List.replicate 16 0)
    (by decide) (by simp) (by decide) (by simp) (by decide) (by simp) (by decide) (by simp)
  have h0 := h.1 0 (List.replicate 16 0) (by decide) (by simp)
  exact ⟨by decide, h0.1, h0.2⟩

/-! ## Out-of-range key generations panic (pkg/nsz/ncz.go:66-77, 148-158).

`UnwrapAesWrappedTitleKey` and `DecryptTitleKey` index the fixed
`[32]`-element derived arrays with the caller-provided `keyGen` before any
nil check; a Go index out of range is a runtime panic, modelled as the
`panicked` outcome. -/

/-- The derived-keys global state as seen by the two accessors. -/
structure KeysState where
  keyAreaKeys : Fin 32 → Fin 3 → Option Bytes
  titleKeks : Fin 32 → Option Bytes

/-- Outcome of a key-unwrap operation, with Go's runtime panic explicit. -/
inductive KeyOpResult where
  | panicked
  | keyNotDerived
  | cryptoFailed
  | ok (key : Bytes)
deriving DecidableEq

/-- `UnwrapAesWrappedTitleKey(wrappedKey, keyGen)`:
`kak := keyAreaKeys[keyGen][0]` (panics when `keyGen ≥ 32`), then the nil
check, then `ECBDecrypt(wrappedKey, kak)`. -/
def UnwrapAesWrappedTitleKey (D : Bytes → Bytes → Bytes) (st : KeysState)
    (wrappedKey : Bytes) (keyGen : Nat) : KeyOpResult :=
  if h : keyGen < 32 then
    match st.keyAreaKeys ⟨keyGen, h⟩ 0 with
    | none => .keyNotDerived
    | some kak =>
      match goECB D wrappedKey kak with
      | none => .cryptoFailed
      | some k => .ok k
  else .panicked

/-- `DecryptTitleKey(encryptedKey, keyGen)`: `kek := titleKeks[keyGen]`
(panics when `keyGen ≥ 32`), then the nil check, then
`ECBDecrypt(encryptedKey, kek)`. -/
def DecryptTitleKey (D : Bytes → Bytes → Bytes) (st : KeysState)
    (encryptedKey : Bytes) (keyGen : Nat) : KeyOpResult :=
  if h : keyGen < 32 then
    match st.titleKeks ⟨keyGen, h⟩ with
    | none => .keyNotDerived
    | some kek =>
      match goECB D encryptedKey kek with
      | none => .cryptoFailed
      | some k => .ok k
  else .panicked

/-- C9: for every key generation `≥ 32` — reachable, since the byte-valued
header fields give effective generations up to 254 — both accessors index
the 32-element arrays out of bounds and panic instead of returning the
`KeyNotDerived` error; the `KeyNotDerived` branch is reachable only for
generations in `[0, 32)` whose derived key is absent. -/
theorem claim9_outOfRangePanics (D : Bytes → Bytes → Bytes) (st : KeysState)
    (w e : Bytes) (keyGen : Nat) :
    (32 ≤ keyGen →
      UnwrapAesWrappedTitleKey D st w keyGen = .panicked ∧
      DecryptTitleKey D st e keyGen = .panicked) ∧
    (UnwrapAesWrappedTitleKey D st w keyGen = .keyNotDerived →
      ∃ h : keyGen < 32, st.keyAreaKeys ⟨keyGen, h⟩ 0 = none) ∧
    (DecryptTitleKey D st e keyGen = .keyNotDerived →
      ∃ h : keyGen < 32, st.titleKeks ⟨keyGen, h⟩ = none) ∧
    (∀ kg kg2 : Nat, kg < 256 → kg2 < 256 → (effectiveKeyGen kg kg2).toNat ≤ 254) ∧
    (effectiveKeyGen 255 0).toNat = 254 := by
  refine ⟨?_, ?_, ?_, ?_, by decide⟩
  · intro h32
    unfold UnwrapAesWrappedTitleKey DecryptTitleKey
    rw [dif_neg (by omega), dif_neg (by omega)]
    exact ⟨rfl, rfl⟩
  · intro h
    unfold UnwrapAesWrappedTitleKey at h
    by_cases hlt : keyGen < 32
    · rw [dif_pos hlt] at h
      refine ⟨hlt, ?_⟩
      rcases hk : st.keyAreaKeys ⟨keyGen, hlt⟩ 0 with _ | kak
      · rfl
      · rw [hk] at h
        exfalso
        have h' : (match goECB D w kak with
            | none => KeyOpResult.cryptoFailed
            | some k => KeyOpResult.ok k) = KeyOpResult.keyNotDerived := h
        rcases hg : goECB D w kak with _ | k <;> rw [hg] at h' <;> simp at h'
    · rw [dif_neg hlt] at h
      exact absurd h (by simp)
  · intro h
    unfold DecryptTitleKey at h
    by_cases hlt : keyGen < 32
    · rw [dif_pos hlt] at h
      refine ⟨hlt, ?_⟩
      rcases hk : st.titleKeks ⟨keyGen, hlt⟩ with _ | kek
      · rfl
      · rw [hk] at h
        exfalso
        have h' : (match goECB D e kek with
            | none => KeyOpResult.cryptoFailed
            | some k => KeyOpResult.ok k) = KeyOpResult.keyNotDerived := h
        rcases hg : goECB D e kek with _ | k <;> rw [hg] at h' <;> simp at h'
    · rw [dif_neg hlt] at h
      exact absurd h (by simp)
  · intro kg kg2 h1 h2
    unfold effectiveKeyGen
    split <;> split <;> omega

/-- C9 witness: generation 254 (the maximum reachable from byte-valued
header fields) panics in both accessors. -/
theorem claim9_witness :
    (32 ≤ 254) ∧
    UnwrapAesWrappedTitleKey (fun _ b => b) ⟨fun _ _ => none, fun _ => none⟩ [] 254 =
      .panicked ∧
    DecryptTitleKey (fun _ b => b) ⟨fun _ _ => none, fun _ => none⟩ [] 254 =
      .panicked := by
  refine ⟨by norm_num, ?_⟩
  exact (claim9_outOfRangePanics (fun _ b => b) ⟨fun _ _ => none, fun _ => none⟩
    [] [] 254).1 (by norm_num)

/-! ## BKTR subsection parsing (pkg/fs/bktr.go).

A Go byte slice with random access is modelled as `Buf`: a length plus a
total indexing function (reads are reduced mod 256 where the source reads a
byte).  All accesses made by the embedded parser are guarded by the same
bounds checks as the source, so the indexing function is never consulted
outside `[0, size)`. -/

/-- A random-access byte buffer (a Go `[]byte` / `io.ReaderAt`). -/
structure Buf where
  size : Nat
  get : Nat → Nat

/-- One byte read, `data[p]`. -/
def readU8 (d : Buf) (p : Nat) : Nat := d.get p % 256

/-- `binary.LittleEndian.Uint32(data[p : p+4])`. -/
def readU32 (d : Buf) (p : Nat) : Nat :=
  readU8 d p + readU8 d (p + 1) * 256 + readU8 d (p + 2) * 256 ^ 2 +
    readU8 d (p + 3) * 256 ^ 3

/-- `binary.LittleEndian.Uint64(data[p : p+8])`. -/
def readU64 (d : Buf) (p : Nat) : Nat :=
  readU32 d p + readU32 d (p + 4) * 256 ^ 4

/-- Go `uint64` subtraction `a - b` (wrapping mod 2^64). -/
def wsub64 (a b : Nat) : Nat := (a + 2 ^ 64 - b) % 2 ^ 64

theorem wsub64_of_le {a b : Nat} (h : b ≤ a) (ha : a < 2 ^ 64) : wsub64 a b = a - b := by
  unfold wsub64
  omega

/-- BKTR header from FS header bytes 0x100-0x120 / 0x120-0x140. -/
structure BktrHeader where
  offset : Nat
  size : Nat
  magic : Bytes
  version : Nat
  entryCount : Nat
  reserved : Nat
deriving DecidableEq

/-- One subsection entry; `size` is computed from consecutive differences. -/
structure BktrSubsectionEntry where
  virtualOffset : Nat
  size : Nat
  padding : Nat
  ctr : Nat
deriving DecidableEq

/-- One subsection bucket. -/
structure BktrBucket where
  padding : Nat
  entryCount : Nat
  endOffset : Nat
  entries : List BktrSubsectionEntry
deriving DecidableEq

/-- Entry loop of `ParseBktrSubsectionBuckets` (bktr.go:113-125): reads up to
`entryCount` 16-byte entries, stopping early at truncated data. -/
def parseBktrEntries (d : Buf) : Nat → Nat → List BktrSubsectionEntry
  | _, 0 => []
  | pos, k + 1 =>
    if pos + 16 > d.size then []
    else
      { virtualOffset := readU64 d pos
        size := 0
        padding := readU32 d (pos + 8)
        ctr := readU32 d (pos + 12) } :: parseBktrEntries d (pos + 16) k

/-- Size computation (bktr.go:127-134): consecutive differences, the last
entry closed against the bucket's `EndOffset`; Go `uint64` arithmetic. -/
def setEntrySizes (endOffset : Nat) : List BktrSubsectionEntry → List BktrSubsectionEntry
  | [] => []
  | [e] => [{ e with size := wsub64 endOffset e.virtualOffset }]
  | e :: e2 :: rest =>
      { e with size := wsub64 e2.virtualOffset e.virtualOffset } ::
        setEntrySizes endOffset (e2 :: rest)

/-- Bucket loop of `ParseBktrSubsectionBuckets` (bktr.go:97-138): stops (keeping
earlier buckets) at truncated data or at a bucket with `EntryCount > 0xFFFF`. -/
def parseBktrBuckets (d : Buf) : Nat → Nat → List BktrBucket
  | _, 0 => []
  | bucketPos, n + 1 =>
    if bucketPos + 16 > d.size then []
    else if readU32 d (bucketPos + 4) > 0xFFFF then []
    else
      { padding := readU32 d bucketPos
        entryCount := readU32 d (bucketPos + 4)
        endOffset := readU64 d (bucketPos + 8)
        entries := setEntrySizes (readU64 d (bucketPos + 8))
          (parseBktrEntries d (bucketPos + 16) (readU32 d (bucketPos + 4))) } ::
        parseBktrBuckets d (bucketPos + 16 + readU32 d (bucketPos + 4) * 16) n

/-- The pure part of `ParseBktrSubsectionBuckets`, acting on the decrypted
BKTR area (bktr.go:77-140): header checks, then the bucket loop starting
after the 16-byte header and the 0x3FF0-byte base-offset table. -/
def ParseBktrSubsectionBucketsData (d : Buf) : List BktrBucket :=
  if d.size < 16 then []
  else if readU32 d 4 = 0 ∨ readU32 d 4 > 100 then []
  else if d.size < 16 + 0x3FF0 then []
  else parseBktrBuckets d (16 + 0x3FF0) (readU32 d 4)

/-- `ParseBktrSubsectionBuckets` (bktr.go:54-141): guard checks, read of the
encrypted area, in-place CTR decryption with the title key and the section's
base counter at the area's absolute offset, then the pure parse.  `AESE` is
the abstract AES block encryption (key → counter block → keystream block);
every failure path of the source (nil inputs, short counter, read error,
cipher construction error) yields the same no-buckets outcome as a graceful
bounds-check exit does, because the caller in nca.go treats `err != nil` and
`len(buckets) == 0` identically. -/
def ParseBktrSubsectionBuckets (AESE : Bytes → Bytes → Bytes) (r : Buf)
    (sectionOffset : Nat) (hdr : Option BktrHeader) (titleKey : Option Bytes)
    (baseCounter : Bytes) : List BktrBucket :=
  match hdr with
  | none => []
  | some h =>
    if h.size = 0 then []
    else
      match titleKey with
      | none => []
      | some tk =>
        if baseCounter.length < 16 then []
        else if sectionOffset + h.offset + h.size > r.size then []
        else if tk.length ≠ 16 then []
        else
          ParseBktrSubsectionBucketsData
            { size := h.size
              get := fun i =>
                r.get (sectionOffset + h.offset + i) ^^^
                  ksByte (AESE tk) baseCounter (sectionOffset + h.offset) i }

/-- `SetBktrCounter(baseCounter, ctrVal)` (bktr.go:146-157): copy the base
counter into a fresh 16-byte buffer and overwrite bytes [4,8) with the
big-endian `ctrVal`. -/
def SetBktrCounter (baseCounter : Bytes) (ctrVal : Nat) : Bytes :=
  let c := copyInto (List.replicate 16 0) baseCounter
  c.take 4 ++ beBytes 4 ctrVal ++ c.drop 8

/-! ## Section planning (pkg/fs/nca.go, pkg/nsz/ncz.go `NczSectionEntry`). -/

/-- `nsz.NczSectionEntry` (0x38 bytes on the wire). -/
structure NczSectionEntry where
  offset : Nat
  size : Nat
  cryptoType : Nat
  padding : Nat
  cryptoKey : Bytes
  cryptoCounter : Bytes
deriving DecidableEq

def MediaSize : Nat := 0x200
def CryptoTypeCTR : Nat := 3
def CryptoTypeBKTR : Nat := 4

/-- `buildBaseIV` (nca.go:125-133): place the 8-byte FS counter into the
upper half of a zeroed 16-byte buffer, then reverse the whole buffer. -/
def buildBaseIV (counter : Bytes) : Bytes :=
  (List.replicate 8 0 ++ copyInto (List.replicate 8 0) counter).reverse

/-- The `CryptoKey` field: zero-initialized, overwritten by
`copy(sec.CryptoKey[:], titleKey)` when the title key is present. -/
def mkSectionKey (titleKey : Option Bytes) : Bytes :=
  match titleKey with
  | some tk => copyInto (List.replicate 16 0) tk
  | none => List.replicate 16 0

/-- The per-entry NCZ section built at nca.go:87-99. -/
def bktrSectionOf (sectionOffset : Nat) (titleKey : Option Bytes) (baseIV : Bytes)
    (e : BktrSubsectionEntry) : NczSectionEntry :=
  { offset := (sectionOffset + e.virtualOffset) % 2 ^ 64
    size := e.size
    cryptoType := CryptoTypeCTR
    padding := 0
    cryptoKey := mkSectionKey titleKey
    cryptoCounter := copyInto (List.replicate 16 0) (SetBktrCounter baseIV e.ctr) }

/-- Absolute end of a BKTR entry (`sectionOffset + entry.VirtualOffset +
entry.Size` in `uint64`). -/
def bktrEntryEnd (sectionOffset : Nat) (e : BktrSubsectionEntry) : Nat :=
  (sectionOffset + e.virtualOffset + e.size) % 2 ^ 64

/-- Inner entry loop of `parseBktrSections` (nca.go:82-104), threading the
running `lastEntryEnd`. -/
def bktrEntriesLoop (sectionOffset : Nat) (titleKey : Option Bytes) (baseIV : Bytes) :
    List BktrSubsectionEntry → Nat → List NczSectionEntry × Nat
  | [], lastEnd => ([], lastEnd)
  | e :: rest, lastEnd =>
    if e.size = 0 then bktrEntriesLoop sectionOffset titleKey baseIV rest lastEnd
    else
      (bktrSectionOf sectionOffset titleKey baseIV e ::
        (bktrEntriesLoop sectionOffset titleKey baseIV rest
          (if bktrEntryEnd sectionOffset e > lastEnd then bktrEntryEnd sectionOffset e
           else lastEnd)).1,
       (bktrEntriesLoop sectionOffset titleKey baseIV rest
         (if bktrEntryEnd sectionOffset e > lastEnd then bktrEntryEnd sectionOffset e
          else lastEnd)).2)

/-- Outer bucket loop of `parseBktrSections` (nca.go:81-105). -/
def bktrBucketsLoop (sectionOffset : Nat) (titleKey : Option Bytes) (baseIV : Bytes) :
    List BktrBucket → Nat → List NczSectionEntry × Nat
  | [], lastEnd => ([], lastEnd)
  | b :: rest, lastEnd =>
    ((bktrEntriesLoop sectionOffset titleKey baseIV b.entries lastEnd).1 ++
      (bktrBucketsLoop sectionOffset titleKey baseIV rest
        (bktrEntriesLoop sectionOffset titleKey baseIV b.entries lastEnd).2).1,
     (bktrBucketsLoop sectionOffset titleKey baseIV rest
       (bktrEntriesLoop sectionOffset titleKey baseIV b.entries lastEnd).2).2)

/-- The trailing gap section appended at nca.go:107-119. -/
def bktrTailSection (lastEnd sectionEnd : Nat) (titleKey : Option Bytes)
    (baseIV : Bytes) : NczSectionEntry :=
  { offset := lastEnd
    size := sectionEnd - lastEnd
    cryptoType := CryptoTypeCTR
    padding := 0
    cryptoKey := mkSectionKey titleKey
    cryptoCounter := copyInto (List.replicate 16 0) baseIV }

/-- Section construction of `parseBktrSections` from already-parsed buckets
(nca.go:78-121). -/
def parseBktrSectionsFromBuckets (sectionOffset sectionEnd : Nat)
    (titleKey : Option Bytes) (baseIV : Bytes) (buckets : List BktrBucket) :
    List NczSectionEntry :=
  if (bktrBucketsLoop sectionOffset titleKey baseIV buckets 0).2 < sectionEnd then
    (bktrBucketsLoop sectionOffset titleKey baseIV buckets 0).1 ++
      [bktrTailSection (bktrBucketsLoop sectionOffset titleKey baseIV buckets 0).2
        sectionEnd titleKey baseIV]
  else (bktrBucketsLoop sectionOffset titleKey baseIV buckets 0).1

/-- `parseBktrSections` (nca.go:72-122): parse the buckets (any error or an
empty result yields no sections), then build one section per entry plus the
optional tail. -/
def parseBktrSections (AESE : Bytes → Bytes → Bytes) (r : Buf)
    (titleKey : Option Bytes) (sectionOffset sectionEnd : Nat)
    (bktrHeader : BktrHeader) (baseIV : Bytes) : List NczSectionEntry :=
  if ParseBktrSubsectionBuckets AESE r sectionOffset (some bktrHeader) titleKey baseIV
      = [] then []
  else parseBktrSectionsFromBuckets sectionOffset sectionEnd titleKey baseIV
    (ParseBktrSubsectionBuckets AESE r sectionOffset (some bktrHeader) titleKey baseIV)

/-- One section table entry (nca_header.go:51-56); fields are `uint32`. -/
structure SectionEntry where
  mediaStartOffset : Nat
  mediaEndOffset : Nat
  unknown1 : Nat
  unknown2 : Nat
deriving DecidableEq

/-- The parsed FS header fields consumed by the planner (nca_header.go:58-70). -/
structure FsHeader where
  version : Nat
  fsType : Nat
  hashType : Nat
  cryptoType : Nat
  cryptoCounter : Bytes
  bktrRelocation : Option BktrHeader
  bktrSubsection : Option BktrHeader
deriving DecidableEq

/-- The parsed NCA header fields consumed by the planner. -/
structure NcaHeader where
  sectionTables : List SectionEntry
  fsHeaders : List FsHeader
  titleKey : Option Bytes

/-- An open NCA: parsed header plus the random-access reader. -/
structure NCA where
  header : NcaHeader
  reader : Buf

/-- The single full-range section emitted on the default path
(nca.go:50-60). -/
def defaultSection (sectionOffset sectionSize cryptoType : Nat)
    (titleKey : Option Bytes) (baseIV : Bytes) : NczSectionEntry :=
  { offset := sectionOffset
    size := sectionSize
    cryptoType := cryptoType
    padding := 0
    cryptoKey := mkSectionKey titleKey
    cryptoCounter := copyInto (List.replicate 16 0) baseIV }

/-- Loop body of `GetEncryptionSections` (nca.go:28-61) for one
(section-table entry, FS header) pair: skip vacant entries, fan out
BKTR sections when the subsection header is present with positive size and
the parse produces sections, otherwise emit the single full-range section. -/
def pairSections (AESE : Bytes → Bytes → Bytes) (r : Buf) (titleKey : Option Bytes)
    (p : SectionEntry × FsHeader) : List NczSectionEntry :=
  if p.1.mediaStartOffset = 0 ∧ p.1.mediaEndOffset = 0 then []
  else
    match p.2.bktrSubsection with
    | some bh =>
      if p.2.cryptoType = CryptoTypeBKTR ∧ 0 < bh.size then
        if parseBktrSections AESE r titleKey (p.1.mediaStartOffset * MediaSize)
            (p.1.mediaEndOffset * MediaSize) bh (buildBaseIV p.2.cryptoCounter) = [] then
          [defaultSection (p.1.mediaStartOffset * MediaSize)
            (wsub64 (p.1.mediaEndOffset * MediaSize) (p.1.mediaStartOffset * MediaSize))
            p.2.cryptoType titleKey (buildBaseIV p.2.cryptoCounter)]
        else
          parseBktrSections AESE r titleKey (p.1.mediaStartOffset * MediaSize)
            (p.1.mediaEndOffset * MediaSize) bh (buildBaseIV p.2.cryptoCounter)
      else
        [defaultSection (p.1.mediaStartOffset * MediaSize)
          (wsub64 (p.1.mediaEndOffset * MediaSize) (p.1.mediaStartOffset * MediaSize))
          p.2.cryptoType titleKey (buildBaseIV p.2.cryptoCounter)]
    | none =>
      [defaultSection (p.1.mediaStartOffset * MediaSize)
        (wsub64 (p.1.mediaEndOffset * MediaSize) (p.1.mediaStartOffset * MediaSize))
        p.2.cryptoType titleKey (buildBaseIV p.2.cryptoCounter)]

/-- The unsorted section list: loop over the zipped section table and FS
headers in order. -/
def planRaw (AESE : Bytes → Bytes → Bytes) (r : Buf) (titleKey : Option Bytes) :
    List (SectionEntry × FsHeader) → List NczSectionEntry
  | [] => []
  | p :: ps => pairSections AESE r titleKey p ++ planRaw AESE r titleKey ps

/-- Insertion step of the final sort.  `sort.Slice(sections, less =
offset <)` leaves the order of equal offsets unspecified; the embedding
fixes one order consistent with the comparator. -/
def insertByOffset (x : NczSectionEntry) : List NczSectionEntry → List NczSectionEntry
  | [] => [x]
  | y :: ys => if x.offset ≤ y.offset then x :: y :: ys else y :: insertByOffset x ys

/-- The final sort by `Offset` (nca.go:64-66). -/
def sortByOffset : List NczSectionEntry → List NczSectionEntry
  | [] => []
  | x :: xs => insertByOffset x (sortByOffset xs)

/-- `GetEncryptionSections` (nca.go:25-69). -/
def GetEncryptionSections (AESE : Bytes → Bytes → Bytes) (n : NCA) :
    List NczSectionEntry :=
  sortByOffset (planRaw AESE n.reader n.header.titleKey
    (n.header.sectionTables.zip n.header.fsHeaders))

theorem insertByOffset_perm (x : NczSectionEntry) (l : List NczSectionEntry) :
    (insertByOffset x l).Perm (x :: l) := by
  induction l with
  | nil => rfl
  | cons y ys ih =>
    rw [insertByOffset]
    split
    · exact List.Perm.refl _
    · exact ((ih.cons y).trans (List.Perm.swap x y ys)).symm.symm

theorem sortByOffset_perm (l : List NczSectionEntry) : (sortByOffset l).Perm l := by
  induction l with
  | nil => rfl
  | cons x xs ih =>
    exact (insertByOffset_perm x (sortByOffset xs)).trans (ih.cons x)

theorem insertByOffset_sorted (x : NczSectionEntry) (l : List NczSectionEntry)
    (hl : l.Pairwise (fun a b => a.offset ≤ b.offset)) :
    (insertByOffset x l).Pairwise (fun a b => a.offset ≤ b.offset) := by
  induction l with
  | nil => simp [insertByOffset]
  | cons y ys ih =>
    rw [List.pairwise_cons] at hl
    rw [insertByOffset]
    split
    · rename_i hxy
      rw [List.pairwise_cons]
      refine ⟨?_, List.pairwise_cons.mpr hl⟩
      intro z hz
      cases hz with
      | head => exact hxy
      | tail _ hz => exact le_trans hxy (hl.1 z hz)
    · rename_i hxy
      rw [List.pairwise_cons]
      refine ⟨?_, ih hl.2⟩
      intro z hz
      have hz' := (insertByOffset_perm x ys).mem_iff.mp hz
      cases hz' with
      | head => omega
      | tail _ hz' => exact hl.1 z hz'

theorem sortByOffset_sorted (l : List NczSectionEntry) :
    (sortByOffset l).Pairwise (fun a b => a.offset ≤ b.offset) := by
  induction l with
  | nil => exact List.Pairwise.nil
  | cons x xs ih => exact insertByOffset_sorted x (sortByOffset xs) ih

/-! ## C4: the BKTR fan-out. -/

/-- Flat list of nonzero-size entries, in bucket/entry order (zero-size
entries are skipped by the loop at nca.go:83-85). -/
def bktrNonzeroEntries (buckets : List BktrBucket) : List BktrSubsectionEntry :=
  ((buckets.map BktrBucket.entries).flatten).filter (fun e => e.size ≠ 0)

/-- The final value of `lastEntryEnd`: the maximum entry end over all
emitted (nonzero-size) entries, starting from 0 (nca.go:101-103). -/
def bktrMaxEnd (sectionOffset : Nat) (buckets : List BktrBucket) : Nat :=
  (bktrNonzeroEntries buckets).foldl
    (fun acc e => max acc (bktrEntryEnd sectionOffset e)) 0

theorem copyInto_replicate16 (b : Bytes) (h : b.length = 16) :
    copyInto (List.replicate 16 0) b = b := by
  unfold copyInto
  rw [List.length_replicate, h, Nat.min_self,
    List.drop_eq_nil_of_le (by rw [List.length_replicate]),
    List.append_nil, List.take_of_length_le (by rw [h])]

theorem bktrEntriesLoop_spec (so : Nat) (tk : Option Bytes) (iv : Bytes) :
    ∀ (es : List BktrSubsectionEntry) (lastEnd : Nat),
      bktrEntriesLoop so tk iv es lastEnd =
        ((es.filter (fun e => e.size ≠ 0)).map (bktrSectionOf so tk iv),
         (es.filter (fun e => e.size ≠ 0)).foldl
           (fun acc e => max acc (bktrEntryEnd so e)) lastEnd) := by
  intro es
  induction es with
  | nil => intro lastEnd; rfl
  | cons e rest ih =>
    intro lastEnd
    rw [bktrEntriesLoop]
    by_cases h : e.size = 0
    · rw [if_pos h, ih lastEnd]
      have hf : (e :: rest).filter (fun e => e.size ≠ 0) =
          rest.filter (fun e => e.size ≠ 0) := by
        simp [List.filter_cons, h]
      rw [hf]
    · rw [if_neg h, ih]
      have hf : (e :: rest).filter (fun e => e.size ≠ 0) =
          e :: rest.filter (fun e => e.size ≠ 0) := by
        simp [List.filter_cons, h]
      have hm : (if bktrEntryEnd so e > lastEnd then bktrEntryEnd so e else lastEnd) =
          max lastEnd (bktrEntryEnd so e) := by
        split <;> omega
      rw [hf, List.map_cons, List.foldl_cons, hm]

theorem bktrBucketsLoop_spec (so : Nat) (tk : Option Bytes) (iv : Bytes) :
    ∀ (bs : List BktrBucket) (lastEnd : Nat),
      bktrBucketsLoop so tk iv bs lastEnd =
        ((bktrNonzeroEntries bs).map (bktrSectionOf so tk iv),
         (bktrNonzeroEntries bs).foldl
           (fun acc e => max acc (bktrEntryEnd so e)) lastEnd) := by
  intro bs
  induction bs with
  | nil => intro lastEnd; rfl
  | cons b rest ih =>
    intro lastEnd
    have hsplit : bktrNonzeroEntries (b :: rest) =
        b.entries.filter (fun e => e.size ≠ 0) ++ bktrNonzeroEntries rest := by
      unfold bktrNonzeroEntries
      rw [List.map_cons, List.flatten_cons, List.filter_append]
    rw [bktrBucketsLoop, bktrEntriesLoop_spec, ih, hsplit, List.map_append,
      List.foldl_append]

theorem parseBktrSectionsFromBuckets_eq (so se : Nat) (tk : Option Bytes)
    (iv : Bytes) (buckets : List BktrBucket) :
    parseBktrSectionsFromBuckets so se tk iv buckets =
      (bktrNonzeroEntries buckets).map (bktrSectionOf so tk iv) ++
      (if bktrMaxEnd so buckets < se
        then [bktrTailSection (bktrMaxEnd so buckets) se tk iv] else []) := by
  unfold parseBktrSectionsFromBuckets
  rw [bktrBucketsLoop_spec]
  show (if bktrMaxEnd so buckets < se then _ ++ [_] else _) = _
  split
  · rfl
  · rw [List.append_nil]

/-- C4 (counterexample to the claim as stated): two parser-consistent buckets
whose first entry ends exactly at the section end while the *last* emitted
entry ends at `0x4020 < 0x4200`; the claim requires a tail section
`[0x4020, 0x4200)`, but the code tracks the *maximum* end over all entries
(here `0x4200`), so no tail section is emitted at all. -/
theorem claim4_counterexample :
    0x4000 + 0x10 + 0x10 < 0x4200 ∧
    (parseBktrSectionsFromBuckets 0x4000 0x4200 (some (List.replicate 16 0))
      (List.replicate 16 0)
      [⟨0, 1, 0x200, [⟨0, 0x200, 0, 1⟩]⟩,
       ⟨0, 1, 0x20, [⟨0x10, 0x10, 0, 2⟩]⟩]).length = 2 ∧
    ∀ s ∈ parseBktrSectionsFromBuckets 0x4000 0x4200 (some (List.replicate 16 0))
      (List.replicate 16 0)
      [⟨0, 1, 0x200, [⟨0, 0x200, 0, 1⟩]⟩,
       ⟨0, 1, 0x20, [⟨0x10, 0x10, 0, 2⟩]⟩],
      s.offset ≠ 0x4020 := by
  refine ⟨by norm_num, by decide, by decide⟩

/-- C4 (amended): for a 16-byte title key and base IV, the fan-out emits one
NCZ section per nonzero-size BKTR entry, in order, with
`offset = (section_offset + entry.virtual_offset) mod 2^64`,
`size = entry.size`, `crypto_type = CTR`, `key = title_key`, and counter
equal to the base IV with bytes [4,8) overwritten by the big-endian
`ctr_seed`; and if the *maximum* end over all emitted entries (the code's
`lastEntryEnd`, which is the last entry's end only when entry ends are
nondecreasing) is strictly below `section_end`, a tail section from that
maximum to `section_end` with `crypto_type = CTR` and counter equal to the
base IV is additionally emitted. -/
theorem claim4_bktrFanOut (so se : Nat) (tk iv : Bytes) (buckets : List BktrBucket)
    (htk : tk.length = 16) (hiv : iv.length = 16) :
    parseBktrSectionsFromBuckets so se (some tk) iv buckets =
      (bktrNonzeroEntries buckets).map (bktrSectionOf so (some tk) iv) ++
      (if bktrMaxEnd so buckets < se
        then [bktrTailSection (bktrMaxEnd so buckets) se (some tk) iv] else []) ∧
    (∀ e : BktrSubsectionEntry,
      bktrSectionOf so (some tk) iv e =
        { offset := (so + e.virtualOffset) % 2 ^ 64
          size := e.size
          cryptoType := CryptoTypeCTR
          padding := 0
          cryptoKey := tk
          cryptoCounter := iv.take 4 ++ beBytes 4 e.ctr ++ iv.drop 8 }) ∧
    bktrTailSection (bktrMaxEnd so buckets) se (some tk) iv =
      { offset := bktrMaxEnd so buckets
        size := se - bktrMaxEnd so buckets
        cryptoType := CryptoTypeCTR
        padding := 0
        cryptoKey := tk
        cryptoCounter := iv } := by
  have hkey : mkSectionKey (some tk) = tk := copyInto_replicate16 tk htk
  have hsbc : ∀ ctrVal, SetBktrCounter iv ctrVal =
      iv.take 4 ++ beBytes 4 ctrVal ++ iv.drop 8 := by
    intro ctrVal
    unfold SetBktrCounter
    rw [copyInto_replicate16 iv hiv]
  have hsbclen : ∀ ctrVal, (SetBktrCounter iv ctrVal).length = 16 := by
    intro ctrVal
    rw [hsbc, List.length_append, List.length_append, List.length_take,
      beBytes_length, List.length_drop, hiv]
    omega
  refine ⟨parseBktrSectionsFromBuckets_eq so se (some tk) iv buckets, ?_, ?_⟩
  · intro e
    unfold bktrSectionOf
    rw [hkey, copyInto_replicate16 _ (hsbclen e.ctr), hsbc]
  · unfold bktrTailSection
    rw [hkey, copyInto_replicate16 iv hiv]

/-- C4 witness: the fan-out equation applied to one concrete bucket (one
nonzero entry ending at `0x4020`, with a tail up to `0x4200`). -/
theorem claim4_witness :
    (List.replicate 16 (0 : Nat)).length = 16 ∧
    parseBktrSectionsFromBuckets 0x4000 0x4200 (some (List.replicate 16 0))
        (List.replicate 16 0) [⟨0, 1, 0x20, [⟨0x10, 0x10, 0, 5⟩]⟩] =
      (bktrNonzeroEntries [⟨0, 1, 0x20, [⟨0x10, 0x10, 0, 5⟩]⟩]).map
        (bktrSectionOf 0x4000 (some (List.replicate 16 0)) (List.replicate 16 0)) ++
      (if bktrMaxEnd 0x4000 [⟨0, 1, 0x20, [⟨0x10, 0x10, 0, 5⟩]⟩] < 0x4200
        then [bktrTailSection (bktrMaxEnd 0x4000 [⟨0, 1, 0x20, [⟨0x10, 0x10, 0, 5⟩]⟩])
          0x4200 (some (List.replicate 16 0)) (List.replicate 16 0)]
        else []) := by
  refine ⟨by decide, ?_⟩
  exact (claim4_bktrFanOut 0x4000 0x4200 (List.replicate 16 0) (List.replicate 16 0)
    [⟨0, 1, 0x20, [⟨0x10, 0x10, 0, 5⟩]⟩] (by decide) (by decide)).1

/-! ## C8: bounds checks in the BKTR parse. -/

/-- A decrypted BKTR area whose first bucket is valid (one entry of size
0x20) and whose second bucket declares `EntryCount = 0x10000 > 0xFFFF`. -/
def c8Buf : Buf :=
  { size := 0x4030
    get := fun i =>
      if i = 4 then 2
      else if i = 0x4004 then 1
      else if i = 0x4008 then 0x20
      else if i = 0x4026 then 1
      else 0 }

/-- C8 (counterexample to the claim as stated): a subsection index whose
second bucket violates the `entry_count ≤ 0xFFFF` bound.  The claim says the
parser then yields no entries at all; the code instead stops at the violating
bucket and keeps the first bucket, whose single entry has nonzero size. -/
theorem claim8_counterexample :
    readU32 c8Buf (16 + 0x3FF0 + 16 + 16 + 4) > 0xFFFF ∧
    (ParseBktrSubsectionBucketsData c8Buf).length = 1 ∧
    ((ParseBktrSubsectionBucketsData c8Buf).map BktrBucket.entries).flatten.length = 1 ∧
    ∀ e ∈ ((ParseBktrSubsectionBucketsData c8Buf).map BktrBucket.entries).flatten,
      e.size = 0x20 := by
  decide

/-- C8 (amended): header-level violations — data shorter than the 16-byte
header, `bucket_count = 0` or `> 100`, or data shorter than the header plus
the 0x3FF0-byte base-offset table — yield no buckets at all; a truncated
bucket or one declaring `entry_count > 0xFFFF` terminates the bucket loop at
that bucket, keeping the buckets already parsed; no violation ever fails the
NCA (the embedded parse and planner are total), and whenever a BKTR-eligible
entry's parse yields no sections the planner falls back to the single
full-range section for that entry. -/
theorem claim8_gracefulBounds :
    (∀ d : Buf, d.size < 16 → ParseBktrSubsectionBucketsData d = []) ∧
    (∀ d : Buf, readU32 d 4 = 0 ∨ readU32 d 4 > 100 →
      ParseBktrSubsectionBucketsData d = []) ∧
    (∀ d : Buf, d.size < 16 + 0x3FF0 → ParseBktrSubsectionBucketsData d = []) ∧
    (∀ (d : Buf) (pos n : Nat), pos + 16 > d.size →
      parseBktrBuckets d pos (n + 1) = []) ∧
    (∀ (d : Buf) (pos n : Nat), ¬ pos + 16 > d.size →
      readU32 d (pos + 4) > 0xFFFF → parseBktrBuckets d pos (n + 1) = []) ∧
    (∀ (AESE : Bytes → Bytes → Bytes) (r : Buf) (tk : Option Bytes)
        (so se : Nat) (bh : BktrHeader) (iv : Bytes),
      ParseBktrSubsectionBuckets AESE r so (some bh) tk iv = [] →
      parseBktrSections AESE r tk so se bh iv = []) ∧
    (∀ (AESE : Bytes → Bytes → Bytes) (r : Buf) (tk : Option Bytes)
        (p : SectionEntry × FsHeader) (bh : BktrHeader),
      ¬ (p.1.mediaStartOffset = 0 ∧ p.1.mediaEndOffset = 0) →
      p.2.bktrSubsection = some bh →
      parseBktrSections AESE r tk (p.1.mediaStartOffset * MediaSize)
        (p.1.mediaEndOffset * MediaSize) bh (buildBaseIV p.2.cryptoCounter) = [] →
      pairSections AESE r tk p =
        [defaultSection (p.1.mediaStartOffset * MediaSize)
          (wsub64 (p.1.mediaEndOffset * MediaSize) (p.1.mediaStartOffset * MediaSize))
          p.2.cryptoType tk (buildBaseIV p.2.cryptoCounter)]) := by
  refine ⟨?_, ?_, ?_, ?_, ?_, ?_, ?_⟩
  · intro d h
    unfold ParseBktrSubsectionBucketsData
    rw [if_pos h]
  · intro d h
    unfold ParseBktrSubsectionBucketsData
    by_cases h16 : d.size < 16
    · rw [if_pos h16]
    · rw [if_neg h16, if_pos h]
  · intro d h
    unfold ParseBktrSubsectionBucketsData
    by_cases h16 : d.size < 16
    · rw [if_pos h16]
    · rw [if_neg h16]
      by_cases hbc : readU32 d 4 = 0 ∨ readU32 d 4 > 100
      · rw [if_pos hbc]
      · rw [if_neg hbc, if_pos h]
  · intro d pos n h
    rw [parseBktrBuckets, if_pos h]
  · intro d pos n h1 h2
    rw [parseBktrBuckets, if_neg h1, if_pos h2]
  · intro AESE r tk so se bh iv h
    unfold parseBktrSections
    rw [if_pos h]
  · intro AESE r tk p bh hvac hsub hparse
    unfold pairSections
    rw [if_neg hvac]
    simp only [hsub]
    by_cases hcond : p.2.cryptoType = CryptoTypeBKTR ∧ 0 < bh.size
    · rw [if_pos hcond, if_pos hparse]
    · rw [if_neg hcond]

/-- C8 witness: the amended theorem applied to concrete violating inputs
(an empty area; a bucket count of 200 in a well-sized area). -/
theorem claim8_witness :
    ((Buf.mk 0 (fun _ => 0)).size < 16 ∧
      ParseBktrSubsectionBucketsData (Buf.mk 0 (fun _ => 0)) = []) ∧
    (readU32 (Buf.mk 0x4010 (fun i => if i = 4 then 200 else 0)) 4 > 100 ∧
      ParseBktrSubsectionBucketsData (Buf.mk 0x4010 (fun i => if i = 4 then 200 else 0))
        = []) := by
  constructor
  · exact ⟨by norm_num, claim8_gracefulBounds.1 (Buf.mk 0 (fun _ => 0)) (by norm_num)⟩
  · refine ⟨by decide, ?_⟩
    exact claim8_gracefulBounds.2.1 (Buf.mk 0x4010 (fun i => if i = 4 then 200 else 0))
      (Or.inr (by decide))

/-! ## C5: invariants of the planned section list. -/

/-- Vacancy test of `GetEncryptionSections` (nca.go:29-31). -/
def vacantEntry (p : SectionEntry × FsHeader) : Prop :=
  p.1.mediaStartOffset = 0 ∧ p.1.mediaEndOffset = 0

instance (p : SectionEntry × FsHeader) : Decidable (vacantEntry p) := by
  unfold vacantEntry
  infer_instance

/-- `section_offset` of a table entry. -/
def soOfPair (p : SectionEntry × FsHeader) : Nat := p.1.mediaStartOffset * MediaSize

/-- `section_end` of a table entry. -/
def seOfPair (p : SectionEntry × FsHeader) : Nat := p.1.mediaEndOffset * MediaSize

/-- The single full-range section the default path emits for a pair. -/
def dfltOf (titleKey : Option Bytes) (p : SectionEntry × FsHeader) : NczSectionEntry :=
  defaultSection (soOfPair p) (wsub64 (seOfPair p) (soOfPair p)) p.2.cryptoType
    titleKey (buildBaseIV p.2.cryptoCounter)

/-- Non-overlap of two sections. -/
def secSep (a b : NczSectionEntry) : Prop :=
  a.offset + a.size ≤ b.offset ∨ b.offset + b.size ≤ a.offset

theorem planRaw_mem_char (AESE : Bytes → Bytes → Bytes) (r : Buf) (tk : Option Bytes) :
    ∀ ps : List (SectionEntry × FsHeader),
      (∀ p ∈ ps, pairSections AESE r tk p =
        if vacantEntry p then [] else [dfltOf tk p]) →
      ∀ s, s ∈ planRaw AESE r tk ps ↔
        ∃ p, p ∈ ps ∧ ¬ vacantEntry p ∧ s = dfltOf tk p := by
  intro ps
  induction ps with
  | nil =>
    intro _ s
    simp [planRaw]
  | cons p ps ih =>
    intro hd s
    have hp := hd p (List.mem_cons_self _ _)
    have ihs := ih (fun q hq => hd q (List.mem_cons_of_mem _ hq)) s
    rw [planRaw, hp]
    by_cases hv : vacantEntry p
    · rw [if_pos hv, List.nil_append, ihs]
      constructor
      · rintro ⟨q, hq, hnv, rfl⟩
        exact ⟨q, List.mem_cons_of_mem _ hq, hnv, rfl⟩
      · rintro ⟨q, hq, hnv, rfl⟩
        cases hq with
        | head => exact absurd hv hnv
        | tail _ hq => exact ⟨q, hq, hnv, rfl⟩
    · rw [if_neg hv, List.singleton_append, List.mem_cons, ihs]
      constructor
      · rintro (rfl | ⟨q, hq, hnv, rfl⟩)
        · exact ⟨p, List.mem_cons_self _ _, hv, rfl⟩
        · exact ⟨q, List.mem_cons_of_mem _ hq, hnv, rfl⟩
      · rintro ⟨q, hq, hnv, rfl⟩
        cases hq with
        | head => exact Or.inl rfl
        | tail _ hq => exact Or.inr ⟨q, hq, hnv, rfl⟩

theorem planRaw_pairwise_sep (AESE : Bytes → Bytes → Bytes) (r : Buf) (tk : Option Bytes) :
    ∀ ps : List (SectionEntry × FsHeader),
      (∀ p ∈ ps, pairSections AESE r tk p =
        if vacantEntry p then [] else [dfltOf tk p]) →
      (∀ p ∈ ps, ¬ vacantEntry p → soOfPair p < seOfPair p ∧ seOfPair p < 2 ^ 64) →
      ps.Pairwise (fun p q => ¬ vacantEntry p → ¬ vacantEntry q →
        seOfPair p ≤ soOfPair q ∨ seOfPair q ≤ soOfPair p) →
      (planRaw AESE r tk ps).Pairwise secSep := by
  intro ps
  induction ps with
  | nil => intro _ _ _; exact List.Pairwise.nil
  | cons p ps ih =>
    intro hd hwf hdisj
    rw [List.pairwise_cons] at hdisj
    have hdp := hd p (List.mem_cons_self _ _)
    have hd' := fun q hq => hd q (List.mem_cons_of_mem _ hq)
    have hwf' := fun q hq => hwf q (List.mem_cons_of_mem _ hq)
    have ihp := ih hd' hwf' hdisj.2
    rw [planRaw, hdp]
    by_cases hv : vacantEntry p
    · rw [if_pos hv, List.nil_append]
      exact ihp
    · rw [if_neg hv, List.singleton_append, List.pairwise_cons]
      refine ⟨?_, ihp⟩
      intro b hb
      obtain ⟨q, hq, hnvq, rfl⟩ := (planRaw_mem_char AESE r tk ps hd' b).mp hb
      have h1 := hwf p (List.mem_cons_self _ _) hv
      have h2 := hwf' q hq hnvq
      have h3 := hdisj.1 q hq hv hnvq
      show secSep (dfltOf tk p) (dfltOf tk q)
      unfold secSep
      have e1 : (dfltOf tk p).offset = soOfPair p := rfl
      have e2 : (dfltOf tk p).size = wsub64 (seOfPair p) (soOfPair p) := rfl
      have e3 : (dfltOf tk q).offset = soOfPair q := rfl
      have e4 : (dfltOf tk q).size = wsub64 (seOfPair q) (soOfPair q) := rfl
      rw [e1, e2, e3, e4, wsub64_of_le (le_of_lt h1.1) h1.2,
        wsub64_of_le (le_of_lt h2.1) h2.2]
      omega

theorem pairwise_lt_of_le_ne :
    ∀ l : List NczSectionEntry,
      l.Pairwise (fun a b => a.offset ≤ b.offset) →
      l.Pairwise (fun a b => a.offset ≠ b.offset) →
      l.Pairwise (fun a b => a.offset < b.offset) := by
  intro l
  induction l with
  | nil => intro _ _; exact List.Pairwise.nil
  | cons x xs ih =>
    intro h1 h2
    rw [List.pairwise_cons] at h1 h2 ⊢
    exact ⟨fun b hb => lt_of_le_of_ne (h1.1 b hb) (h2.1 b hb), ih h1.2 h2.2⟩

/-- C5 (amended): the section list produced by `GetEncryptionSections` is
always sorted non-decreasingly by offset; the default (non-BKTR-fan-out)
path emits for a non-vacant entry exactly its full range
`[section_offset, section_end)`; and when every pair takes the default path,
every non-vacant entry has `section_offset < section_end < 2^64`, and the
non-vacant entries' ranges are pairwise disjoint, the list is strictly
increasing in offset, pairwise non-overlapping, and its union equals the
union of the non-vacant entries' full ranges. -/
theorem claim5_sectionListInvariants (AESE : Bytes → Bytes → Bytes) (n : NCA) :
    (GetEncryptionSections AESE n).Pairwise (fun a b => a.offset ≤ b.offset) ∧
    (∀ (so se ct : Nat) (tk : Option Bytes) (iv : Bytes), so ≤ se → se < 2 ^ 64 →
      (defaultSection so (wsub64 se so) ct tk iv).offset = so ∧
      (defaultSection so (wsub64 se so) ct tk iv).offset +
        (defaultSection so (wsub64 se so) ct tk iv).size = se) ∧
    ((∀ p ∈ n.header.sectionTables.zip n.header.fsHeaders,
        pairSections AESE n.reader n.header.titleKey p =
          if vacantEntry p then [] else [dfltOf n.header.titleKey p]) →
      (∀ p ∈ n.header.sectionTables.zip n.header.fsHeaders, ¬ vacantEntry p →
        soOfPair p < seOfPair p ∧ seOfPair p < 2 ^ 64) →
      (n.header.sectionTables.zip n.header.fsHeaders).Pairwise
        (fun p q => ¬ vacantEntry p → ¬ vacantEntry q →
          seOfPair p ≤ soOfPair q ∨ seOfPair q ≤ soOfPair p) →
      (GetEncryptionSections AESE n).Pairwise (fun a b => a.offset < b.offset) ∧
      (GetEncryptionSections AESE n).Pairwise secSep ∧
      (∀ x : Nat,
        (∃ s ∈ GetEncryptionSections AESE n, s.offset ≤ x ∧ x < s.offset + s.size) ↔
        (∃ p ∈ n.header.sectionTables.zip n.header.fsHeaders,
          ¬ vacantEntry p ∧ soOfPair p ≤ x ∧ x < seOfPair p))) := by
  have hperm : (GetEncryptionSections AESE n).Perm
      (planRaw AESE n.reader n.header.titleKey
        (n.header.sectionTables.zip n.header.fsHeaders)) :=
    sortByOffset_perm _
  refine ⟨sortByOffset_sorted _, ?_, ?_⟩
  · intro so se ct tk iv hle hse
    unfold defaultSection
    refine ⟨rfl, ?_⟩
    show so + wsub64 se so = se
    rw [wsub64_of_le hle hse]
    omega
  · intro hd hwf hdisj
    have hsep_raw := planRaw_pairwise_sep AESE n.reader n.header.titleKey _ hd hwf hdisj
    have hsymm : ∀ {a b : NczSectionEntry}, secSep a b → secSep b a := by
      intro a b h
      unfold secSep at *
      omega
    have hsep : (GetEncryptionSections AESE n).Pairwise secSep :=
      (hperm.pairwise_iff hsymm).mpr hsep_raw
    have hchar := planRaw_mem_char AESE n.reader n.header.titleKey _ hd
    have hpos : ∀ s ∈ planRaw AESE n.reader n.header.titleKey
        (n.header.sectionTables.zip n.header.fsHeaders), 0 < s.size := by
      intro s hs
      obtain ⟨q, hq, hnv, rfl⟩ := (hchar s).mp hs
      have h2 := hwf q hq hnv
      show 0 < wsub64 (seOfPair q) (soOfPair q)
      rw [wsub64_of_le (le_of_lt h2.1) h2.2]
      omega
    have hne_raw : (planRaw AESE n.reader n.header.titleKey
        (n.header.sectionTables.zip n.header.fsHeaders)).Pairwise
        (fun a b => a.offset ≠ b.offset) := by
      refine hsep_raw.imp_of_mem ?_
      intro a b ha hb hab
      have hpa := hpos a ha
      have hpb := hpos b hb
      unfold secSep at hab
      omega
    have hne : (GetEncryptionSections AESE n).Pairwise
        (fun a b => a.offset ≠ b.offset) :=
      (hperm.pairwise_iff (fun h => Ne.symm h)).mpr hne_raw
    refine ⟨pairwise_lt_of_le_ne _ (sortByOffset_sorted _) hne, hsep, ?_⟩
    intro x
    constructor
    · rintro ⟨s, hs, hx1, hx2⟩
      obtain ⟨q, hq, hnv, rfl⟩ := (hchar s).mp (hperm.mem_iff.mp hs)
      have h2 := hwf q hq hnv
      refine ⟨q, hq, hnv, ?_, ?_⟩
      · exact hx1
      · have : (dfltOf n.header.titleKey q).offset + (dfltOf n.header.titleKey q).size =
            seOfPair q := by
          show soOfPair q + wsub64 (seOfPair q) (soOfPair q) = seOfPair q
          rw [wsub64_of_le (le_of_lt h2.1) h2.2]
          omega
        omega
    · rintro ⟨q, hq, hnv, hx1, hx2⟩
      have h2 := hwf q hq hnv
      refine ⟨dfltOf n.header.titleKey q, hperm.mem_iff.mpr ((hchar _).mpr ⟨q, hq, hnv, rfl⟩),
        hx1, ?_⟩
      have : (dfltOf n.header.titleKey q).offset + (dfltOf n.header.titleKey q).size =
          seOfPair q := by
        show soOfPair q + wsub64 (seOfPair q) (soOfPair q) = seOfPair q
        rw [wsub64_of_le (le_of_lt h2.1) h2.2]
        omega
      omega

/-- An NCA file whose single non-vacant section (media units [32, 33), i.e.
bytes [0x4000, 0x4200)) is a BKTR section; its subsection index holds two
buckets with one entry each, both starting at virtual offset 0x10, with ends
0x30 and 0x20.  Byte values are what the CTR decryption of the file must
yield; the counterexample instantiates the abstract AES with a cipher whose
keystream is all-zero, so the file bytes below are the decrypted bytes. -/
def c5Reader : Buf :=
  { size := 0x4000 + 0x4040
    get := fun i =>
      if i = 0x4004 then 2
      else if i = 0x8004 then 1
      else if i = 0x8008 then 0x30
      else if i = 0x8010 then 0x10
      else if i = 0x801C then 5
      else if i = 0x8024 then 1
      else if i = 0x8028 then 0x20
      else if i = 0x8030 then 0x10
      else if i = 0x803C then 6
      else 0 }

def c5FsDummy : FsHeader := ⟨0, 0, 0, 0, List.replicate 8 0, none, none⟩

def c5Nca : NCA :=
  { header :=
    { sectionTables := [⟨32, 33, 0, 0⟩, ⟨0, 0, 0, 0⟩, ⟨0, 0, 0, 0⟩, ⟨0, 0, 0, 0⟩]
      fsHeaders :=
        [⟨0, 0, 0, 4, List.replicate 8 0, none, some ⟨0, 0x4040, [0, 0, 0, 0], 0, 0, 0⟩⟩,
         c5FsDummy, c5FsDummy, c5FsDummy]
      titleKey := some (List.replicate 16 7) }
    reader := c5Reader }

/-- C5 (counterexample to the claim as stated): on `c5Nca` the planner emits
sections with offsets `[0x4010, 0x4010, 0x4030]` — not strictly increasing;
the first two sections (sizes 0x20 and 0x10 at the same offset) overlap; and
byte 0x4000 of the non-vacant entry's range `[0x4000, 0x4200)` is covered by
no section, so the union is not the entry's full range. -/
theorem claim5_counterexample :
    c5Nca.header.sectionTables.get? 0 = some ⟨32, 33, 0, 0⟩ ∧
    ¬ ((32 : Nat) = 0 ∧ (33 : Nat) = 0) ∧
    32 * MediaSize = 0x4000 ∧ 33 * MediaSize = 0x4200 ∧
    (GetEncryptionSections (fun _ _ => []) c5Nca).map NczSectionEntry.offset =
      [0x4010, 0x4010, 0x4030] ∧
    ((GetEncryptionSections (fun _ _ => []) c5Nca).map
      (fun s => (s.offset, s.size))).take 2 = [(0x4010, 0x20), (0x4010, 0x10)] ∧
    (∀ s ∈ GetEncryptionSections (fun _ _ => []) c5Nca,
      ¬ (s.offset ≤ 0x4000 ∧ 0x4000 < s.offset + s.size)) := by
  decide

/-- A BKTR-free NCA with two non-vacant, disjoint sections. -/
def c5wNca : NCA :=
  { header :=
    { sectionTables := [⟨32, 33, 0, 0⟩, ⟨64, 96, 0, 0⟩, ⟨0, 0, 0, 0⟩, ⟨0, 0, 0, 0⟩]
      fsHeaders := List.replicate 4 ⟨0, 0, 0, 3, List.replicate 8 0, none, none⟩
      titleKey := none }
    reader := ⟨0, fun _ => 0⟩ }

/-- C5 witness: the amended invariants applied to `c5wNca` (all hypotheses
discharged by evaluation); its section list is strictly increasing and byte
0x4000 is covered. -/
theorem claim5_witness :
    (GetEncryptionSections (fun _ _ => []) c5wNca).Pairwise
      (fun a b => a.offset < b.offset) ∧
    (∃ s ∈ GetEncryptionSections (fun _ _ => []) c5wNca,
      s.offset ≤ 0x4000 ∧ 0x4000 < s.offset + s.size) := by
  have h := (claim5_sectionListInvariants (fun _ _ => []) c5wNca).2.2
    (by decide) (by decide) (by decide)
  refine ⟨h.1, ?_⟩
  refine (h.2.2 0x4000).mpr
    ⟨(⟨32, 33, 0, 0⟩, ⟨0, 0, 0, 3, List.replicate 8 0, none, none⟩), ?_, ?_⟩
  · decide
  · exact ⟨by decide, by decide, by decide⟩

end NszGo
